import Mathlib

/-!
Verification of the quarry-mcp ingestion core: a shallow embedding of
`src/quarry/sitemap.py`, `src/quarry/embeddings_sagemaker.py` and the
server-side handler `infra/sagemaker-inference/code/inference.py`, together
with spec-modelled parts of `quarry/pipeline.py` (whose source is not in the
tree; only its tests are).  Machine floats are modelled by exact reals;
timestamps by integers.
-/

namespace Quarry

/-- `SitemapEntry` from `sitemap.py`: a URL discovered from a sitemap, with an
optional last-modified timestamp (modelled as an integer). -/
structure SitemapEntry where
  loc : String
  lastmod : Option Int
deriving DecidableEq

/-- A USP `SitemapPage` as consumed by `_pages_to_entries`: a url and an
optional `last_modified` timestamp.  (The `isinstance(page, SitemapPage)`
guard in the source skips foreign objects; the embedding's input list holds
only pages.) -/
structure SitemapPage where
  url : String
  last_modified : Option Int
deriving DecidableEq

/-- The loop of `_pages_to_entries`: walk the pages, keeping a `seen` set of
urls; a page whose url was already seen is dropped, otherwise it is converted
to an entry and its url recorded. -/
def pagesToEntriesGo (seen : List String) : List SitemapPage → List SitemapEntry
  | [] => []
  | p :: rest =>
    if p.url ∈ seen then pagesToEntriesGo seen rest
    else ⟨p.url, p.last_modified⟩ :: pagesToEntriesGo (p.url :: seen) rest

/-- `_pages_to_entries(pages)` from `sitemap.py` (`seen` starts empty).  Both
`discover_pages` and `discover_urls` produce their result through this
function. -/
def pagesToEntries (pages : List SitemapPage) : List SitemapEntry :=
  pagesToEntriesGo [] pages

/-- Spec-side definition for claim C5 ("each unique location appears exactly
once, in order of first appearance"): keep the head, delete its later
duplicates, recurse. -/
def dedupFirst : List String → List String
  | [] => []
  | u :: rest => u :: dedupFirst (rest.filter fun v => v ≠ u)
termination_by l => l.length
decreasing_by
  simp only [List.length_cons]
  exact Nat.lt_succ_of_le (List.length_filter_le _ _)

/-- The per-entry predicate implicit in the loop of `filter_entries`:
an entry is kept when its URL path (computed by the collaborator `pathOf`,
modelling `urlparse(entry.loc).path`) matches no exclude pattern and, when
the include list is nonempty, matches at least one include pattern.
`fnm` models `fnmatch.fnmatch`. -/
def keepEntry (pathOf : String → String) (fnm : String → String → Bool)
    (incl excl : List String) (e : SitemapEntry) : Bool :=
  !(excl.any fun pat => fnm (pathOf e.loc) pat) &&
    (incl.isEmpty || incl.any fun pat => fnm (pathOf e.loc) pat)

/-- The loop of `filter_entries`: `cnt` counts entries collected so far
(`len(result)`); after appending an entry the loop breaks when
`limit > 0 and len(result) >= limit`.  A falsy (`None` or empty) include or
exclude list is modelled by `[]`, which Python's truthiness makes
behaviourally identical. -/
def filterGo (pathOf : String → String) (fnm : String → String → Bool)
    (incl excl : List String) (limit : Int) :
    List SitemapEntry → Nat → List SitemapEntry
  | [], _ => []
  | e :: rest, cnt =>
    if excl.any (fun pat => fnm (pathOf e.loc) pat) then
      filterGo pathOf fnm incl excl limit rest cnt
    else if !incl.isEmpty && !(incl.any fun pat => fnm (pathOf e.loc) pat) then
      filterGo pathOf fnm incl excl limit rest cnt
    else if 0 < limit ∧ limit ≤ (cnt : Int) + 1 then [e]
    else e :: filterGo pathOf fnm incl excl limit rest (cnt + 1)

/-- `filter_entries(entries, include, exclude, limit)` from `sitemap.py`. -/
def filterEntries (pathOf : String → String) (fnm : String → String → Bool)
    (incl excl : List String) (limit : Int)
    (entries : List SitemapEntry) : List SitemapEntry :=
  filterGo pathOf fnm incl excl limit entries 0

/-- Sum of squares of a vector, the square of its Euclidean norm. -/
noncomputable def sumSq (v : List ℝ) : ℝ :=
  (v.map fun x => x * x).sum

/-- Euclidean (L2) norm of a vector, `np.linalg.norm(v)`. -/
noncomputable def l2norm (v : List ℝ) : ℝ :=
  Real.sqrt (sumSq v)

/-- The norm-clamping epsilon `1e-12` used both by
`embeddings_sagemaker.py` (`np.maximum(norms, 1e-12)`) and by torch's
`F.normalize` in the server handler. -/
noncomputable def epsClamp : ℝ := 1 / 10 ^ 12

/-- Division of a vector by its L2 norm with the denominator clamped below
at `epsClamp`; this is both `arr / np.maximum(norms, 1e-12)` in
`embed_texts` and `F.normalize(cls_embeddings, p=2, dim=1)` in the server
handler. -/
noncomputable def clampNorm (v : List ℝ) : List ℝ :=
  v.map fun x => x / max (l2norm v) epsClamp

/-- A parsed JSON response body from the endpoint, as classified by
`np.array(parsed).ndim` in `embed_texts`: either a 2-D array (rows of
sentence embeddings) or a 3-D array (per-item token embeddings). -/
inductive SMResponse where
  | twoD (rows : List (List ℝ))
  | threeD (items : List (List (List ℝ)))

/-- Lines 95-104 of `embeddings_sagemaker.py`: a 2-D response is used
as-is; a 3-D response is pooled client-side by taking the first (CLS) token
of each item and L2-normalizing it with the clamped denominator. -/
noncomputable def parseResponse : SMResponse → List (List ℝ)
  | .twoD rows => rows
  | .threeD items => items.map fun toks => clampNorm (toks.headD [])

/-- `predict_fn` of the server handler `inference.py`: CLS-token pooling
(first token of the last hidden state of each item) followed by L2
normalization (`F.normalize`, denominator clamped at 1e-12).  The hidden
states produced by the transformer are the function's input. -/
noncomputable def predictFn (lastHiddenState : List (List (List ℝ))) : List (List ℝ) :=
  (lastHiddenState.map fun toks => toks.headD []).map clampNorm

/-- `SageMakerEmbeddingBackend.embed_texts`: empty input short-circuits to an
empty (0, dimension) result with no endpoint call; otherwise the texts are
sliced into `n_batches = (n + 32 - 1) // 32` consecutive batches
`texts[i*32:(i+1)*32]`, the endpoint is invoked once per batch, each parsed
response is processed by `parseResponse`, and the parts are concatenated in
order.  The second component counts endpoint invocations. -/
noncomputable def embedTexts (endpoint : List String → SMResponse) (dim : Nat)
    (texts : List String) : List (List ℝ) × Nat :=
  if texts = [] then ([], 0)
  else
    let nBatches := (texts.length + 32 - 1) / 32
    (((List.range nBatches).map fun i =>
        parseResponse (endpoint ((texts.drop (i * 32)).take 32))).flatten,
      nBatches)

/-- `SageMakerEmbeddingBackend.embed_query`: returns
`self._local.embed_query(query)`.  The network endpoint is an argument only
to witness that the body never consults it; the invocation count (second
component) is 0. -/
def embedQuery (endpoint : List String → SMResponse)
    (localEmbed : String → List ℝ) (q : String) : List ℝ × Nat :=
  (localEmbed q, 0)

/-- The batches `embed_texts` slices off: consecutive runs of at most 32
texts, in input order. -/
def chunksOf32 : List String → List (List String)
  | [] => []
  | a :: rest => ((a :: rest).take 32) :: chunksOf32 ((a :: rest).drop 32)
termination_by l => l.length
decreasing_by
  simp only [List.drop_succ_cons, List.length_drop, List.length_cons]
  omega

/-- The hypothesis of the amended claim C1: every pooled (CLS) vector
underlying the response has pre-normalization L2 norm at least the clamp
epsilon.  A 2-D response is one produced by the server handler `predictFn`
from such hidden states; a 3-D response is pooled client-side from such
items. -/
def goodResponse : SMResponse → Prop
  | .twoD rows => ∃ hidden, rows = predictFn hidden ∧
      ∀ toks ∈ hidden, epsClamp ≤ l2norm (toks.headD [])
  | .threeD items => ∀ toks ∈ items, epsClamp ≤ l2norm (toks.headD [])

/-- Modelled from the spec: the dedup decision of `quarry/pipeline.py`
(`ingest_sitemap`'s per-item freshness check, spec section 4.5), whose source
module is absent from the tree.  Ingest when `overwrite` is set, or no prior
record exists, or the item carries no `lastModified`, else exactly when
`lastModified` is strictly newer than the record's ingestion timestamp. -/
def shouldIngest (lastmod : Option Int) (recordTs : Option Int)
    (overwrite : Bool) : Bool :=
  if overwrite then true
  else
    match recordTs with
    | none => true
    | some ts =>
      match lastmod with
      | none => true
      | some lm => decide (ts < lm)

/-- The per-run ingestion counters of `ingest_sitemap`'s report. -/
structure IngestReport where
  ingested : Nat
  skipped : Nat
  failed : Nat
  errors : List String
deriving DecidableEq

/-- Modelled from the spec: one step of `ingest_sitemap`'s per-item loop
(`quarry/pipeline.py` is absent from the tree).  A dedup-skipped item
increments `skipped`; otherwise the item's content pipeline either succeeds
(increment `ingested`) or raises with a message, which is caught, recorded
as `"<identity>: <message>"`, and counted under `failed`; the loop always
continues. -/
def stepItem (shouldIng : SitemapEntry → Bool)
    (runItem : SitemapEntry → Except String Unit)
    (r : IngestReport) (e : SitemapEntry) : IngestReport :=
  if shouldIng e then
    match runItem e with
    | .ok _ => { r with ingested := r.ingested + 1 }
    | .error msg =>
      { r with failed := r.failed + 1,
               errors := r.errors ++ [e.loc ++ ": " ++ msg] }
  else { r with skipped := r.skipped + 1 }

/-- Modelled from the spec: the per-item loop of `ingest_sitemap` over the
filtered entries, folding the incremental report from zero counters. -/
def processEntries (shouldIng : SitemapEntry → Bool)
    (runItem : SitemapEntry → Except String Unit)
    (entries : List SitemapEntry) : IngestReport :=
  entries.foldl (stepItem shouldIng runItem) ⟨0, 0, 0, []⟩

/-- The report shape of a bulk run. -/
structure BulkReport where
  totalDiscovered : Nat
  afterFilter : Nat
  ingested : Nat
  skipped : Nat
  failed : Nat
  errors : List String

/-- Modelled from the spec: `ingest_sitemap` (module absent from the tree)
composed from the parts that are in the tree — discovery output is filtered
by `filterEntries`, every surviving entry goes through the per-item loop,
and the report records the discovery and post-filter sizes. -/
def ingestSitemap (pathOf : String → String) (fnm : String → String → Bool)
    (incl excl : List String) (limit : Int)
    (shouldIng : SitemapEntry → Bool)
    (runItem : SitemapEntry → Except String Unit)
    (discovered : List SitemapEntry) : BulkReport :=
  let filtered := filterEntries pathOf fnm incl excl limit discovered
  let rep := processEntries shouldIng runItem filtered
  ⟨discovered.length, filtered.length, rep.ingested, rep.skipped, rep.failed,
    rep.errors⟩

/-- Demo pages for the C5 witness: a duplicate location with a different
timestamp on its second occurrence. -/
def demoPages : List SitemapPage :=
  [⟨"https://e.com/a", some 1⟩, ⟨"https://e.com/b", none⟩,
   ⟨"https://e.com/a", some 2⟩]

/-- Demo entries for the filter witnesses. -/
def demoEntries : List SitemapEntry :=
  [⟨"/x", none⟩, ⟨"/y", none⟩, ⟨"/z", none⟩, ⟨"/w", none⟩]

/-- String equality as a demo glob matcher for the filter witnesses. -/
def demoFnm (a b : String) : Bool := a == b

/-- Demo endpoint for the batching witness: answers every batch with a 2-D
response holding one 1-dimensional row per input text. -/
noncomputable def demoEndpoint : List String → SMResponse :=
  fun b => SMResponse.twoD (b.map fun _ => [(1 : ℝ)])

/-- Demo endpoint for the normalization witness: a constant 3-D response of
one item with a single token vector (3, 4), whose norm is 5. -/
noncomputable def demoEndpoint3 : List String → SMResponse :=
  fun _ => SMResponse.threeD [[[(3 : ℝ), 4]]]

/-! ## Sitemap discovery: deduplication (C5) -/

theorem dedupFirst_nil : dedupFirst [] = [] := by
  rw [dedupFirst.eq_def]

theorem dedupFirst_cons (u : String) (rest : List String) :
    dedupFirst (u :: rest) = u :: dedupFirst (rest.filter fun v => v ≠ u) := by
  rw [dedupFirst.eq_def]

theorem filter_notmem_cons (l : List String) (u : String) (seen : List String) :
    (l.filter fun v => v ∉ u :: seen)
      = (l.filter fun v => v ∉ seen).filter fun v => v ≠ u := by
  rw [List.filter_filter]
  apply List.filter_congr
  intro a _
  simp [List.mem_cons, not_or, Bool.and_comm]

theorem pagesToEntriesGo_map_loc (pages : List SitemapPage) : ∀ seen,
    (pagesToEntriesGo seen pages).map SitemapEntry.loc
      = dedupFirst ((pages.map SitemapPage.url).filter fun v => v ∉ seen) := by
  induction pages with
  | nil => intro seen; simp [pagesToEntriesGo, dedupFirst_nil]
  | cons p rest ih =>
    intro seen
    by_cases h : p.url ∈ seen
    · simp only [pagesToEntriesGo, if_pos h, List.map_cons]
      rw [ih seen]
      have hfc : (p.url :: rest.map SitemapPage.url).filter
            (fun v => v ∉ seen)
          = (rest.map SitemapPage.url).filter fun v => v ∉ seen := by
        simp [h]
      rw [hfc]
    · simp only [pagesToEntriesGo, if_neg h, List.map_cons]
      have hfc : (p.url :: rest.map SitemapPage.url).filter
            (fun v => v ∉ seen)
          = p.url :: ((rest.map SitemapPage.url).filter
              fun v => v ∉ seen) := by
        simp [h]
      rw [hfc, dedupFirst_cons, ih (p.url :: seen), filter_notmem_cons]

theorem pagesToEntriesGo_find (pages : List SitemapPage) :
    ∀ seen, ∀ e ∈ pagesToEntriesGo seen pages,
      e.loc ∉ seen ∧
        pages.find? (fun p => p.url == e.loc) = some ⟨e.loc, e.lastmod⟩ := by
  induction pages with
  | nil => intro seen e he; simp [pagesToEntriesGo] at he
  | cons p rest ih =>
    intro seen e he
    by_cases h : p.url ∈ seen
    · rw [pagesToEntriesGo, if_pos h] at he
      obtain ⟨hnot, hfind⟩ := ih seen e he
      have hskip : List.find? (fun q => q.url == e.loc) (p :: rest)
          = List.find? (fun q => q.url == e.loc) rest :=
        List.find?_cons_of_neg rest (by
          simp only [beq_iff_eq]
          intro hEq
          exact hnot (hEq ▸ h))
      exact ⟨hnot, hskip.trans hfind⟩
    · rw [pagesToEntriesGo, if_neg h] at he
      rcases List.mem_cons.mp he with rfl | he2
      · refine ⟨h, ?_⟩
        have hhit : List.find? (fun q => q.url == p.url) (p :: rest)
            = some p :=
          List.find?_cons_of_pos rest (by simp)
        exact hhit
      · obtain ⟨hnot, hfind⟩ := ih (p.url :: seen) e he2
        have hne : e.loc ≠ p.url := fun hEq => hnot (by simp [hEq])
        have hskip : List.find? (fun q => q.url == e.loc) (p :: rest)
            = List.find? (fun q => q.url == e.loc) rest :=
          List.find?_cons_of_neg rest (by simp [hne.symm])
        exact ⟨fun hmem => hnot (List.mem_cons_of_mem _ hmem),
          hskip.trans hfind⟩

/-- C5: `_pages_to_entries` (used by both `discover_pages` and
`discover_urls`) returns each unique location exactly once, in order of
first appearance (its locations are exactly the first-seen dedup of the raw
urls), and each kept entry carries the data of the first page bearing its
location — in particular the first occurrence's last-modified value. -/
theorem discover_dedup_first_seen (pages : List SitemapPage) :
    (pagesToEntries pages).map SitemapEntry.loc
        = dedupFirst (pages.map SitemapPage.url)
    ∧ ∀ e ∈ pagesToEntries pages,
        pages.find? (fun p => p.url == e.loc) = some ⟨e.loc, e.lastmod⟩ := by
  constructor
  · have h := pagesToEntriesGo_map_loc pages []
    simpa [pagesToEntries] using h
  · intro e he
    exact (pagesToEntriesGo_find pages [] e he).2

theorem discover_dedup_first_seen_witness :
    ((⟨"https://e.com/a", some 1⟩ : SitemapEntry) ∈ pagesToEntries demoPages)
    ∧ (pagesToEntries demoPages).map SitemapEntry.loc
        = dedupFirst (demoPages.map SitemapPage.url)
    ∧ demoPages.find? (fun p => p.url == "https://e.com/a")
        = some ⟨"https://e.com/a", some 1⟩ := by
  refine ⟨by decide, (discover_dedup_first_seen demoPages).1, ?_⟩
  exact (discover_dedup_first_seen demoPages).2
    ⟨"https://e.com/a", some 1⟩ (by decide)

/-! ## Entry filtering (C6, C7, C10) -/

theorem keepEntry_true_of (pathOf : String → String)
    (fnm : String → String → Bool) (incl excl : List String)
    (e : SitemapEntry)
    (h1 : ¬(excl.any fun pat => fnm (pathOf e.loc) pat) = true)
    (h2 : ¬(!incl.isEmpty
        && !(incl.any fun pat => fnm (pathOf e.loc) pat)) = true) :
    keepEntry pathOf fnm incl excl e = true := by
  unfold keepEntry
  revert h1 h2
  cases hA : (excl.any fun pat => fnm (pathOf e.loc) pat) <;>
    cases hB : incl.isEmpty <;>
      cases hC : (incl.any fun pat => fnm (pathOf e.loc) pat) <;> simp

theorem keepEntry_false_of_excl (pathOf : String → String)
    (fnm : String → String → Bool) (incl excl : List String)
    (e : SitemapEntry)
    (h1 : (excl.any fun pat => fnm (pathOf e.loc) pat) = true) :
    keepEntry pathOf fnm incl excl e = false := by
  simp [keepEntry, h1]

theorem keepEntry_false_of_incl (pathOf : String → String)
    (fnm : String → String → Bool) (incl excl : List String)
    (e : SitemapEntry)
    (h2 : (!incl.isEmpty
        && !(incl.any fun pat => fnm (pathOf e.loc) pat)) = true) :
    keepEntry pathOf fnm incl excl e = false := by
  unfold keepEntry
  revert h2
  cases hA : (excl.any fun pat => fnm (pathOf e.loc) pat) <;>
    cases hB : incl.isEmpty <;>
      cases hC : (incl.any fun pat => fnm (pathOf e.loc) pat) <;> simp

theorem mem_filterGo_keep (pathOf : String → String)
    (fnm : String → String → Bool) (incl excl : List String) (limit : Int) :
    ∀ (rest : List SitemapEntry) (cnt : Nat) (e : SitemapEntry),
      e ∈ filterGo pathOf fnm incl excl limit rest cnt →
        keepEntry pathOf fnm incl excl e = true := by
  intro rest
  induction rest with
  | nil => intro cnt e he; simp [filterGo] at he
  | cons a rest ih =>
    intro cnt e he
    rw [filterGo] at he
    split_ifs at he with h1 h2 h3
    · exact ih cnt e he
    · exact ih cnt e he
    · rcases List.mem_singleton.mp he with rfl
      exact keepEntry_true_of pathOf fnm incl excl e h1 h2
    · rcases List.mem_cons.mp he with rfl | he2
      · exact keepEntry_true_of pathOf fnm incl excl e h1 h2
      · exact ih (cnt + 1) e he2

/-- C6: every entry in the output of `filter_entries` matches no exclude
pattern on its URL path; hence an entry whose path matches an exclude
pattern is absent from the output even when its path also matches an
include pattern — exclude wins, and matching is against the path component
`pathOf e.loc` only. -/
theorem filter_entries_exclude_wins (pathOf : String → String)
    (fnm : String → String → Bool) (incl excl : List String) (limit : Int)
    (entries : List SitemapEntry) (e : SitemapEntry)
    (he : e ∈ filterEntries pathOf fnm incl excl limit entries) :
    (excl.any fun pat => fnm (pathOf e.loc) pat) = false := by
  have hk := mem_filterGo_keep pathOf fnm incl excl limit entries 0 e he
  simp only [keepEntry, Bool.and_eq_true, Bool.not_eq_true'] at hk
  exact hk.1

theorem filter_entries_exclude_wins_witness :
    ((⟨"/y", none⟩ : SitemapEntry)
        ∈ filterEntries id demoFnm ["/y"] ["/x"] 0 demoEntries)
    ∧ (["/x"].any fun pat =>
        demoFnm (id (SitemapEntry.loc ⟨"/y", none⟩)) pat) = false :=
  ⟨by decide,
    filter_entries_exclude_wins id demoFnm ["/y"] ["/x"] 0 demoEntries
      ⟨"/y", none⟩ (by decide)⟩

theorem filterGo_of_nonpos (pathOf : String → String)
    (fnm : String → String → Bool) (incl excl : List String) (limit : Int)
    (hl : limit ≤ 0) :
    ∀ (rest : List SitemapEntry) (cnt : Nat),
      filterGo pathOf fnm incl excl limit rest cnt
        = rest.filter (keepEntry pathOf fnm incl excl) := by
  intro rest
  induction rest with
  | nil => intro cnt; simp [filterGo]
  | cons a rest ih =>
    intro cnt
    rw [filterGo]
    split_ifs with h1 h2 h3
    · rw [ih cnt, List.filter_cons,
        if_neg (by simp [keepEntry_false_of_excl pathOf fnm incl excl a h1])]
    · rw [ih cnt, List.filter_cons,
        if_neg (by simp [keepEntry_false_of_incl pathOf fnm incl excl a h2])]
    · exact absurd h3.1 (by omega)
    · rw [ih (cnt + 1), List.filter_cons,
        if_pos (keepEntry_true_of pathOf fnm incl excl a h1 h2)]

theorem filterGo_of_pos (pathOf : String → String)
    (fnm : String → String → Bool) (incl excl : List String) (limit : Int)
    (hl : 0 < limit) :
    ∀ (rest : List SitemapEntry) (cnt : Nat), (cnt : Int) < limit →
      filterGo pathOf fnm incl excl limit rest cnt
        = (rest.filter (keepEntry pathOf fnm incl excl)).take
            (limit - cnt).toNat := by
  intro rest
  induction rest with
  | nil => intro cnt _; simp [filterGo]
  | cons a rest ih =>
    intro cnt hcnt
    rw [filterGo]
    split_ifs with h1 h2 h3
    · rw [ih cnt hcnt, List.filter_cons,
        if_neg (by simp [keepEntry_false_of_excl pathOf fnm incl excl a h1])]
    · rw [ih cnt hcnt, List.filter_cons,
        if_neg (by simp [keepEntry_false_of_incl pathOf fnm incl excl a h2])]
    · have hk := keepEntry_true_of pathOf fnm incl excl a h1 h2
      have h1eq : (limit - (cnt : Int)).toNat = 1 := by omega
      rw [List.filter_cons, if_pos hk, h1eq, List.take_succ_cons,
        List.take_zero]
    · have hk := keepEntry_true_of pathOf fnm incl excl a h1 h2
      have hlt : ((cnt : Int) + 1) < limit := by
        rcases not_and_or.mp h3 with h | h
        · exact absurd hl h
        · omega
      have hstep : (limit - (cnt : Int)).toNat
          = (limit - ((cnt : Int) + 1)).toNat + 1 := by omega
      rw [ih (cnt + 1) (by push_cast; omega), List.filter_cons, if_pos hk,
        hstep, List.take_succ_cons]
      push_cast
      ring_nf

/-- C7: in `filter_entries`, `limit = 0` means unlimited (the full
include/exclude-filtered sequence is returned), and a positive `limit`
returns exactly the first `limit` entries surviving the include/exclude
filter, in input order — a prefix take of the filtered sequence. -/
theorem filter_entries_limit_take (pathOf : String → String)
    (fnm : String → String → Bool) (incl excl : List String) (limit : Int)
    (entries : List SitemapEntry) :
    (limit = 0 →
      filterEntries pathOf fnm incl excl limit entries
        = entries.filter (keepEntry pathOf fnm incl excl))
    ∧ (0 < limit →
      filterEntries pathOf fnm incl excl limit entries
        = (entries.filter (keepEntry pathOf fnm incl excl)).take
            limit.toNat) := by
  constructor
  · intro h0
    exact filterGo_of_nonpos pathOf fnm incl excl limit (le_of_eq h0)
      entries 0
  · intro hpos
    have h := filterGo_of_pos pathOf fnm incl excl limit hpos entries 0
      (by exact_mod_cast hpos)
    simpa [filterEntries] using h

theorem filter_entries_limit_take_witness :
    (filterEntries id demoFnm [] [] 2 demoEntries
      = (demoEntries.filter (keepEntry id demoFnm [] [])).take (Int.toNat 2))
    ∧ (filterEntries id demoFnm [] [] 0 demoEntries
      = demoEntries.filter (keepEntry id demoFnm [] [])) :=
  ⟨(filter_entries_limit_take id demoFnm [] [] 2 demoEntries).2 (by norm_num),
    (filter_entries_limit_take id demoFnm [] [] 0 demoEntries).1 rfl⟩

/-- C10: `filter_entries` treats every negative `limit` exactly like
`limit = 0` — the guard is `limit > 0`, so no truncation happens and the
full include/exclude-filtered sequence is returned. -/
theorem filter_entries_negative_limit_unlimited (pathOf : String → String)
    (fnm : String → String → Bool) (incl excl : List String) (limit : Int)
    (entries : List SitemapEntry) (hneg : limit < 0) :
    filterEntries pathOf fnm incl excl limit entries
      = entries.filter (keepEntry pathOf fnm incl excl) :=
  filterGo_of_nonpos pathOf fnm incl excl limit (le_of_lt hneg) entries 0

theorem filter_entries_negative_limit_unlimited_witness :
    ((-1 : Int) < 0)
    ∧ filterEntries id demoFnm [] [] (-1) demoEntries
        = demoEntries.filter (keepEntry id demoFnm [] []) :=
  ⟨by norm_num,
    filter_entries_negative_limit_unlimited id demoFnm [] [] (-1)
      demoEntries (by norm_num)⟩

/-! ## Dedup policy (C8, spec-modelled) -/

/-- C8: the dedup decision ingests exactly when `overwrite` is set, or no
prior record exists, or the item carries no `lastModified`, or the item's
`lastModified` is strictly newer than the record's ingestion timestamp;
equivalently, an un-overwritten item with a record and a `lastModified` not
strictly newer is skipped. -/
theorem should_ingest_iff (lastmod recordTs : Option Int) (overwrite : Bool) :
    shouldIngest lastmod recordTs overwrite = true ↔
      (overwrite = true ∨ recordTs = none ∨ lastmod = none ∨
        ∃ lm ts, lastmod = some lm ∧ recordTs = some ts ∧ ts < lm) := by
  cases overwrite <;> cases recordTs <;> cases lastmod <;>
    simp [shouldIngest]

/-! ## Bulk ingestion report (C9, spec-modelled) -/

theorem foldl_stepItem (shouldIng : SitemapEntry → Bool)
    (runItem : SitemapEntry → Except String Unit) :
    ∀ (entries : List SitemapEntry) (r : IngestReport),
      ((entries.foldl (stepItem shouldIng runItem) r).ingested
          + (entries.foldl (stepItem shouldIng runItem) r).skipped
          + (entries.foldl (stepItem shouldIng runItem) r).failed
        = r.ingested + r.skipped + r.failed + entries.length)
      ∧ (entries.foldl (stepItem shouldIng runItem) r).errors
        = r.errors ++ entries.filterMap (fun e =>
            if shouldIng e then
              match runItem e with
              | .ok _ => none
              | .error m => some (e.loc ++ ": " ++ m)
            else none)
      ∧ (entries.foldl (stepItem shouldIng runItem) r).failed
        = r.failed + (entries.filterMap (fun e =>
            if shouldIng e then
              match runItem e with
              | .ok _ => none
              | .error m => some (e.loc ++ ": " ++ m)
            else none)).length := by
  intro entries
  induction entries with
  | nil => intro r; simp
  | cons e rest ih =>
    intro r
    rcases ih (stepItem shouldIng runItem r e) with ⟨ih1, ih2, ih3⟩
    by_cases hs : shouldIng e
    · rcases hr : runItem e with u | m
      · refine ⟨?_, ?_, ?_⟩
        · rw [List.foldl_cons, ih1]
          simp [stepItem, hs, hr]
          omega
        · rw [List.foldl_cons, ih2]
          simp [stepItem, hs, hr]
        · rw [List.foldl_cons, ih3]
          simp [stepItem, hs, hr]
          omega
      · refine ⟨?_, ?_, ?_⟩
        · rw [List.foldl_cons, ih1]
          simp [stepItem, hs, hr]
          omega
        · rw [List.foldl_cons, ih2]
          simp [stepItem, hs, hr]
        · rw [List.foldl_cons, ih3]
          simp [stepItem, hs, hr]
    · refine ⟨?_, ?_, ?_⟩
      · rw [List.foldl_cons, ih1]
        simp [stepItem, hs]
        omega
      · rw [List.foldl_cons, ih2]
        simp [stepItem, hs]
      · rw [List.foldl_cons, ih3]
        simp [stepItem, hs]

/-- C9: the final bulk report satisfies
`ingested + skipped + failed = afterFilter`; the errors list records,
as `"<identity>: <message>"`, exactly the surviving items whose content
pipeline raised — including items after a failure, so a failure never
aborts the remaining items — and `failed` equals its length. -/
theorem ingest_sitemap_count_identity (pathOf : String → String)
    (fnm : String → String → Bool) (incl excl : List String) (limit : Int)
    (shouldIng : SitemapEntry → Bool)
    (runItem : SitemapEntry → Except String Unit)
    (discovered : List SitemapEntry) :
    ((ingestSitemap pathOf fnm incl excl limit shouldIng runItem
          discovered).ingested
        + (ingestSitemap pathOf fnm incl excl limit shouldIng runItem
            discovered).skipped
        + (ingestSitemap pathOf fnm incl excl limit shouldIng runItem
            discovered).failed
      = (ingestSitemap pathOf fnm incl excl limit shouldIng runItem
          discovered).afterFilter)
    ∧ (ingestSitemap pathOf fnm incl excl limit shouldIng runItem
        discovered).errors
      = (filterEntries pathOf fnm incl excl limit discovered).filterMap
          (fun e =>
            if shouldIng e then
              match runItem e with
              | .ok _ => none
              | .error m => some (e.loc ++ ": " ++ m)
            else none)
    ∧ (ingestSitemap pathOf fnm incl excl limit shouldIng runItem
        discovered).failed
      = (ingestSitemap pathOf fnm incl excl limit shouldIng runItem
          discovered).errors.length := by
  rcases foldl_stepItem shouldIng runItem
      (filterEntries pathOf fnm incl excl limit discovered) ⟨0, 0, 0, []⟩
    with ⟨h1, h2, h3⟩
  refine ⟨?_, ?_, ?_⟩
  · simpa [ingestSitemap, processEntries] using h1
  · simpa [ingestSitemap, processEntries] using h2
  · rw [show (ingestSitemap pathOf fnm incl excl limit shouldIng runItem
        discovered).errors
      = (filterEntries pathOf fnm incl excl limit discovered).filterMap
          (fun e =>
            if shouldIng e then
              match runItem e with
              | .ok _ => none
              | .error m => some (e.loc ++ ": " ++ m)
            else none) from by simpa [ingestSitemap, processEntries] using h2]
    simpa [ingestSitemap, processEntries] using h3

/-! ## Norm arithmetic -/

theorem sumSq_nil : sumSq [] = 0 := by
  simp [sumSq]

theorem sumSq_cons (x : ℝ) (v : List ℝ) :
    sumSq (x :: v) = x * x + sumSq v := by
  simp [sumSq]

theorem sumSq_nonneg (v : List ℝ) : 0 ≤ sumSq v := by
  induction v with
  | nil => simp [sumSq]
  | cons x v ih =>
    rw [sumSq_cons]
    exact add_nonneg (mul_self_nonneg x) ih

theorem sumSq_map_div (v : List ℝ) (c : ℝ) :
    sumSq (v.map fun x => x / c) = sumSq v / c ^ 2 := by
  induction v with
  | nil => simp [sumSq]
  | cons x v ih =>
    simp only [List.map_cons, sumSq_cons, ih, pow_two]
    rw [div_mul_div_comm, div_add_div_same]

theorem epsClamp_pos : (0 : ℝ) < epsClamp := by
  norm_num [epsClamp]

/-- Dividing a vector by its (clamped) norm yields a unit vector whenever
the pre-normalization norm is at least the clamp epsilon. -/
theorem l2norm_clampNorm (v : List ℝ) (h : epsClamp ≤ l2norm v) :
    l2norm (clampNorm v) = 1 := by
  have hpos : 0 < l2norm v := lt_of_lt_of_le epsClamp_pos h
  have hs : 0 < sumSq v := by
    rw [l2norm] at hpos
    exact Real.sqrt_pos.mp hpos
  have hmax : max (l2norm v) epsClamp = l2norm v := max_eq_left h
  rw [clampNorm, hmax, l2norm, sumSq_map_div]
  have hsq : l2norm v ^ 2 = sumSq v := by
    rw [l2norm]
    exact Real.sq_sqrt (le_of_lt hs)
  rw [hsq, div_self (ne_of_gt hs), Real.sqrt_one]

/-! ## Batching (C2) -/

theorem chunksOf32_nil : chunksOf32 [] = [] := by
  rw [chunksOf32.eq_def]

theorem chunksOf32_cons (a : String) (rest : List String) :
    chunksOf32 (a :: rest)
      = ((a :: rest).take 32) :: chunksOf32 ((a :: rest).drop 32) := by
  rw [chunksOf32.eq_def]

theorem chunksOf32_flatten (l : List String) : (chunksOf32 l).flatten = l := by
  induction l using chunksOf32.induct with
  | case1 => rw [chunksOf32_nil]; rfl
  | case2 a rest ih =>
    rw [chunksOf32_cons, List.flatten_cons, ih, List.take_append_drop]

theorem chunksOf32_length_le (l : List String) :
    ∀ c ∈ chunksOf32 l, c.length ≤ 32 := by
  induction l using chunksOf32.induct with
  | case1 => intro c hc; rw [chunksOf32_nil] at hc; simp at hc
  | case2 a rest ih =>
    intro c hc
    rw [chunksOf32_cons] at hc
    rcases List.mem_cons.mp hc with rfl | hc2
    · simpa using List.length_take_le 32 (a :: rest)
    · exact ih c hc2

theorem chunksOf32_count (l : List String) :
    (chunksOf32 l).length = (l.length + 32 - 1) / 32 := by
  induction l using chunksOf32.induct with
  | case1 => rw [chunksOf32_nil]; rfl
  | case2 a rest ih =>
    rw [chunksOf32_cons, List.length_cons, ih]
    simp only [List.length_drop, List.length_cons]
    omega

theorem range_map_eq_chunks (f : List String → List (List ℝ))
    (l : List String) :
    (List.range ((l.length + 32 - 1) / 32)).map
        (fun i => f ((l.drop (i * 32)).take 32))
      = (chunksOf32 l).map f := by
  induction l using chunksOf32.induct with
  | case1 => rw [chunksOf32_nil]; rfl
  | case2 a rest ih =>
    rw [chunksOf32_cons, List.map_cons]
    have hnb : ((a :: rest).length + 32 - 1) / 32
        = (((a :: rest).drop 32).length + 32 - 1) / 32 + 1 := by
      simp only [List.length_drop, List.length_cons]
      omega
    have htail :
        (List.range ((((a :: rest).drop 32).length + 32 - 1) / 32)).map
            ((fun i => f (((a :: rest).drop (i * 32)).take 32)) ∘ Nat.succ)
          = (chunksOf32 ((a :: rest).drop 32)).map f := by
      rw [← ih]
      apply List.map_congr_left
      intro i _
      simp only [Function.comp_apply]
      have hmul : Nat.succ i * 32 = 32 + i * 32 := by omega
      rw [hmul, ← List.drop_drop]
    rw [hnb, List.range_succ_eq_map, List.map_cons, List.map_map, htail]
    simp

/-- C2: `embed_texts` over `n` texts invokes the endpoint exactly
`(n + 32 - 1) / 32 = ceil(n / 32)` times; the batches sent are the
consecutive 32-sized slices of the input in order (they concatenate back to
the input and each has at most 32 texts); the result is the concatenation of
the per-batch outputs in request order, and when each batch response yields
one `dim`-sized row per input text the result has shape `(n, dim)`.  Empty
input returns an empty result with zero invocations. -/
theorem embed_texts_batching (endpoint : List String → SMResponse)
    (dim : Nat) (texts : List String)
    (hlen : ∀ b, (parseResponse (endpoint b)).length = b.length)
    (hdim : ∀ b, ∀ row ∈ parseResponse (endpoint b), row.length = dim) :
    (embedTexts endpoint dim texts).2 = (texts.length + 32 - 1) / 32
    ∧ (embedTexts endpoint dim texts).1
        = ((chunksOf32 texts).map fun b => parseResponse (endpoint b)).flatten
    ∧ (chunksOf32 texts).flatten = texts
    ∧ (∀ c ∈ chunksOf32 texts, c.length ≤ 32)
    ∧ (embedTexts endpoint dim texts).1.length = texts.length
    ∧ (∀ row ∈ (embedTexts endpoint dim texts).1, row.length = dim)
    ∧ (texts = [] → embedTexts endpoint dim texts = ([], 0)) := by
  have hmain : (embedTexts endpoint dim texts).1
      = ((chunksOf32 texts).map fun b => parseResponse (endpoint b)).flatten := by
    by_cases hn : texts = []
    · subst hn
      simp [embedTexts, chunksOf32_nil]
    · unfold embedTexts
      rw [if_neg hn]
      exact congrArg List.flatten
        (range_map_eq_chunks (fun b => parseResponse (endpoint b)) texts)
  have hcount : (embedTexts endpoint dim texts).2
      = (texts.length + 32 - 1) / 32 := by
    by_cases hn : texts = []
    · subst hn
      simp [embedTexts]
    · unfold embedTexts
      rw [if_neg hn]
  have hlen1 : (embedTexts endpoint dim texts).1.length = texts.length := by
    rw [hmain, List.length_flatten, List.map_map]
    have hcong : (chunksOf32 texts).map
          (List.length ∘ fun b => parseResponse (endpoint b))
        = (chunksOf32 texts).map List.length :=
      List.map_congr_left fun b _ => hlen b
    rw [hcong, ← List.length_flatten, chunksOf32_flatten]
  refine ⟨hcount, hmain, chunksOf32_flatten texts, chunksOf32_length_le texts,
    hlen1, ?_, ?_⟩
  · intro row hr
    rw [hmain] at hr
    simp only [List.mem_flatten, List.mem_map] at hr
    obtain ⟨part, ⟨b, hb, hpe⟩, hrp⟩ := hr
    subst hpe
    exact hdim b row hrp
  · intro hn
    subst hn
    simp [embedTexts]

theorem embed_texts_batching_witness :
    (∀ b, (parseResponse (demoEndpoint b)).length = b.length)
    ∧ (∀ b, ∀ row ∈ parseResponse (demoEndpoint b), row.length = 1)
    ∧ (embedTexts demoEndpoint 1 ["a", "b"]).2
        = ((["a", "b"] : List String).length + 32 - 1) / 32
    ∧ (embedTexts demoEndpoint 1 ["a", "b"]).1.length
        = (["a", "b"] : List String).length := by
  have h1 : ∀ b, (parseResponse (demoEndpoint b)).length = b.length := by
    intro b
    simp [demoEndpoint, parseResponse]
  have h2 : ∀ b, ∀ row ∈ parseResponse (demoEndpoint b), row.length = 1 := by
    intro b row hr
    simp only [demoEndpoint, parseResponse, List.mem_map] at hr
    obtain ⟨s, _, hs⟩ := hr
    rw [← hs]
    rfl
  refine ⟨h1, h2, ?_, ?_⟩
  · exact (embed_texts_batching demoEndpoint 1 ["a", "b"] h1 h2).1
  · exact (embed_texts_batching demoEndpoint 1 ["a", "b"] h1 h2).2.2.2.2.1

/-! ## 3-D response pooling (C3) -/

/-- C3: when a response parses as a 3-D array, the backend's per-item output
vector `i` is exactly the item's first-token (CLS) vector divided by its L2
norm with the denominator clamped below at `epsClamp = 1e-12`. -/
theorem embed_texts_pools_3d_cls (items : List (List (List ℝ))) (i : Nat)
    (h1 : i < items.length)
    (h2 : i < (parseResponse (SMResponse.threeD items)).length) :
    (parseResponse (SMResponse.threeD items)).get ⟨i, h2⟩
      = ((items.get ⟨i, h1⟩).headD []).map
          (fun x => x / max (l2norm ((items.get ⟨i, h1⟩).headD [])) epsClamp)
    ∧ epsClamp = 1 / 10 ^ 12 := by
  constructor
  · simp only [parseResponse, clampNorm, List.get_eq_getElem,
      List.getElem_map]
  · rfl

theorem embed_texts_pools_3d_cls_witness :
    (0 < ([[[(3 : ℝ), 4]]] : List (List (List ℝ))).length)
    ∧ (parseResponse (SMResponse.threeD [[[(3 : ℝ), 4]]])).get
          ⟨0, by simp [parseResponse]⟩
        = ((([[[(3 : ℝ), 4]]] : List (List (List ℝ))).get
              ⟨0, by simp⟩).headD []).map
            (fun x => x / max
              (l2norm ((([[[(3 : ℝ), 4]]] : List (List (List ℝ))).get
                ⟨0, by simp⟩).headD [])) epsClamp) :=
  ⟨by simp,
    (embed_texts_pools_3d_cls [[[(3 : ℝ), 4]]] 0 (by simp)
      (by simp [parseResponse])).1⟩

/-! ## Query embedding stays local (C4) -/

/-- C4: `embed_query` returns the co-located local backend's vector, its
value is independent of the network endpoint (the same for any two
endpoints), its endpoint-invocation count is 0, and it is a single vector
of the local backend's dimension. -/
theorem embed_query_delegates_local
    (endpoint endpoint2 : List String → SMResponse)
    (localEmbed : String → List ℝ) (dim : Nat) (q : String)
    (hl : (localEmbed q).length = dim) :
    embedQuery endpoint localEmbed q = (localEmbed q, 0)
    ∧ embedQuery endpoint localEmbed q = embedQuery endpoint2 localEmbed q
    ∧ (embedQuery endpoint localEmbed q).2 = 0
    ∧ (embedQuery endpoint localEmbed q).1.length = dim :=
  ⟨rfl, rfl, rfl, hl⟩

theorem embed_query_delegates_local_witness :
    ((fun _ : String => [(1 : ℝ)]) ("hello")).length = 1
    ∧ embedQuery demoEndpoint (fun _ : String => [(1 : ℝ)]) ("hello")
        = ((fun _ : String => [(1 : ℝ)]) ("hello"), 0)
    ∧ embedQuery demoEndpoint (fun _ : String => [(1 : ℝ)]) ("hello")
        = embedQuery demoEndpoint3 (fun _ : String => [(1 : ℝ)]) ("hello")
    ∧ (embedQuery demoEndpoint (fun _ : String => [(1 : ℝ)]) ("hello")).2
        = 0 := by
  have h := embed_query_delegates_local demoEndpoint demoEndpoint3
    (fun _ : String => [(1 : ℝ)]) 1 ("hello") rfl
  exact ⟨rfl, h.1, h.2.1, h.2.2.1⟩

/-! ## Unit norms of returned rows (C1) -/

/-- C1 counterexample: a server whose model emits the zero CLS vector
returns, through `predict_fn`'s clamped normalization, the zero row
unchanged; `embed_texts` passes that 2-D response through as-is, and the
returned row has L2 norm 0, not 1.  So not every returned row is
unit-norm. -/
theorem embed_texts_zero_vector_not_unit :
    predictFn [[[(0 : ℝ), 0]]] = [[(0 : ℝ), 0]]
    ∧ (embedTexts (fun _ => SMResponse.twoD [[(0 : ℝ), 0]]) 2 ["x"]).1
        = [[(0 : ℝ), 0]]
    ∧ l2norm [(0 : ℝ), 0] ≠ 1 := by
  have hz : sumSq [(0 : ℝ), 0] = 0 := by simp [sumSq]
  have hn : l2norm [(0 : ℝ), 0] = 0 := by
    rw [l2norm, hz, Real.sqrt_zero]
  have hcl : clampNorm [(0 : ℝ), 0] = [(0 : ℝ), 0] := by
    simp [clampNorm]
  refine ⟨?_, ?_, ?_⟩
  · simp only [predictFn, List.map_cons, List.map_nil, List.headD_cons]
    rw [hcl]
  · unfold embedTexts
    rw [if_neg (by simp)]
    norm_num [parseResponse, List.range_succ]
  · rw [hn]
    norm_num

/-- C1 amended: every row returned by `embed_texts` has unit L2 norm,
provided every response is either a 2-D response produced by the server
handler `predictFn` from hidden states whose CLS vectors have
pre-normalization norm at least the clamp epsilon `1e-12`, or a 3-D
response whose per-item CLS vectors likewise have norm at least the
epsilon.  (Without that lower bound the clamp returns a sub-unit row, as
the counterexample shows.) -/
theorem embed_texts_rows_unit_norm (endpoint : List String → SMResponse)
    (dim : Nat) (texts : List String)
    (hgood : ∀ b, goodResponse (endpoint b)) (hne : texts ≠ []) :
    ∀ row ∈ (embedTexts endpoint dim texts).1, l2norm row = 1 := by
  intro row hrow
  unfold embedTexts at hrow
  rw [if_neg hne] at hrow
  simp only [List.mem_flatten, List.mem_map, List.mem_range] at hrow
  obtain ⟨part, ⟨i, hi, hpart⟩, hrowpart⟩ := hrow
  rw [← hpart] at hrowpart
  have hg := hgood ((texts.drop (i * 32)).take 32)
  cases hres : endpoint ((texts.drop (i * 32)).take 32) with
  | twoD rows =>
    rw [hres] at hg hrowpart
    simp only [goodResponse] at hg
    obtain ⟨hidden, hrows, hb⟩ := hg
    subst hrows
    simp only [parseResponse, predictFn, List.map_map, List.mem_map,
      Function.comp_apply] at hrowpart
    obtain ⟨toks, htoks, hrowe⟩ := hrowpart
    rw [← hrowe]
    exact l2norm_clampNorm _ (hb toks htoks)
  | threeD items =>
    rw [hres] at hg hrowpart
    simp only [goodResponse] at hg
    simp only [parseResponse, List.mem_map] at hrowpart
    obtain ⟨toks, htoks, hrowe⟩ := hrowpart
    rw [← hrowe]
    exact l2norm_clampNorm _ (hg toks htoks)

theorem embed_texts_rows_unit_norm_witness :
    (∀ b, goodResponse (demoEndpoint3 b))
    ∧ (["x"] : List String) ≠ []
    ∧ ∀ row ∈ (embedTexts demoEndpoint3 768 ["x"]).1, l2norm row = 1 := by
  have hnorm : l2norm [(3 : ℝ), 4] = 5 := by
    have hs : sumSq [(3 : ℝ), 4] = 25 := by
      simp [sumSq]
      norm_num
    rw [l2norm, hs, show (25 : ℝ) = 5 ^ 2 by norm_num]
    exact Real.sqrt_sq (by norm_num)
  have hg : ∀ b, goodResponse (demoEndpoint3 b) := by
    intro b
    simp only [demoEndpoint3, goodResponse]
    intro toks htoks
    simp only [List.mem_singleton] at htoks
    subst htoks
    simp only [List.headD_cons]
    rw [hnorm]
    norm_num [epsClamp]
  exact ⟨hg, by simp,
    embed_texts_rows_unit_norm demoEndpoint3 768 ["x"] hg (by simp)⟩

end Quarry
